import Mathlib

/-!
Verification development for the json-formatter core (`JsonUtils` and the
tree-view `toggleNode` helper).

The JavaScript value universe reachable from `JSON.parse` is embedded as the
inductive `JVal`.  Numbers are modelled as arbitrary-precision integers: the
f64 payload of the engine (fractions, exponents, rounding) is outside the
model, and every concrete value appearing in the claims is a small integer.

`JSON.parse` / `JSON.stringify` are platform builtins, not code of this
repository, so they are modelled from the spec (RFC 8259 grammar with the
integer restriction above); everything else is translated line by line from
`src/unnamed/part_001` (JsonUtils) and `src/unnamed/part_000` (toggleNode).
-/

namespace JsonFormatter

/-- The tagged JSON value type of the spec's Value model (numbers as integers). -/
inductive JVal where
  | null : JVal
  | bool (b : Bool) : JVal
  | num (n : Int) : JVal
  | str (s : String) : JVal
  | arr (elems : List JVal) : JVal
  | obj (fields : List (String × JVal)) : JVal
deriving Repr

/-- Digit character for a digit 0-9 (larger inputs clamp to '9'; never used there). -/
def digitChar : Nat → Char
  | 0 => '0' | 1 => '1' | 2 => '2' | 3 => '3' | 4 => '4'
  | 5 => '5' | 6 => '6' | 7 => '7' | 8 => '8' | _ => '9'

/-- Hex digit character for 0-15 (lowercase, as JSON.stringify emits). -/
def hexDigitChar : Nat → Char
  | 0 => '0' | 1 => '1' | 2 => '2' | 3 => '3' | 4 => '4'
  | 5 => '5' | 6 => '6' | 7 => '7' | 8 => '8' | 9 => '9'
  | 10 => 'a' | 11 => 'b' | 12 => 'c' | 13 => 'd' | 14 => 'e' | _ => 'f'

/-- Decimal digits with explicit fuel (any fuel above the input suffices). -/
def natDigitsAux : Nat → Nat → List Char
  | 0, _ => []
  | Nat.succ fuel, n =>
    if n < 10 then [digitChar n]
    else natDigitsAux fuel (n / 10) ++ [digitChar (n % 10)]

/-- Decimal digits of a natural number, most significant first. -/
def natDigits (n : Nat) : List Char :=
  natDigitsAux (n + 1) n

/-- Serialization of an integer JSON number. -/
def serNum (n : Int) : List Char :=
  if n < 0 then '-' :: natDigits n.natAbs else natDigits n.natAbs

/-- Modelled from the spec: standard JSON escaping of one string character
(quote, backslash, and control characters; the latter via a uniform
four-hex-digit escape, which `parse` accepts per the JSON grammar). -/
def escChar (c : Char) : List Char :=
  if c = '"' then ['\\', '"']
  else if c = '\\' then ['\\', '\\']
  else if c.toNat < 32 then
    ['\\', 'u', '0', '0', hexDigitChar (c.toNat / 16), hexDigitChar (c.toNat % 16)]
  else [c]

/-- Escaped body of a JSON string literal. -/
def serStrBody : List Char → List Char
  | [] => []
  | c :: rest => escChar c ++ serStrBody rest

/-- Serialization of a JSON string (quotes plus escaped body). -/
def serStr (s : String) : List Char :=
  '"' :: (serStrBody s.data ++ ['"'])

/-- Newline followed by `n` spaces: the whitespace JSON.stringify inserts
before an entry printed at indentation width `n`. -/
def nlIndent (n : Nat) : List Char :=
  '\n' :: List.replicate n ' '

/-- Whitespace emitted before an entry at depth `d`: empty in compact mode,
newline plus indentation in pretty mode. -/
def indWs (opt : Option Nat) (d : Nat) : List Char :=
  match opt with
  | none => []
  | some w => nlIndent (w * d)

/-- Whitespace after a member colon: one space in pretty mode. -/
def colWs (opt : Option Nat) : List Char :=
  match opt with
  | none => []
  | some _ => [' ']

mutual
/-- Modelled from the spec: `JSON.stringify` serialization.  `opt = none` is
the compact form; `opt = some w` the pretty form with `w` spaces per level,
`d` being the current depth. -/
def serV (opt : Option Nat) (d : Nat) : JVal → List Char
  | .null => ['n', 'u', 'l', 'l']
  | .bool b => if b then ['t', 'r', 'u', 'e'] else ['f', 'a', 'l', 's', 'e']
  | .num n => serNum n
  | .str s => serStr s
  | .arr l => serArr opt d l
  | .obj l => serObj opt d l

/-- Array serialization: brackets around the comma-joined elements. -/
def serArr (opt : Option Nat) (d : Nat) : List JVal → List Char
  | [] => ['[', ']']
  | e :: es =>
    '[' :: (indWs opt (d + 1) ++ serV opt (d + 1) e ++ serL opt (d + 1) es ++
      indWs opt d ++ [']'])

/-- Object serialization: braces around the comma-joined members. -/
def serObj (opt : Option Nat) (d : Nat) : List (String × JVal) → List Char
  | [] => ['{', '}']
  | (k, v) :: fs =>
    '{' :: (indWs opt (d + 1) ++ serStr k ++ ':' :: (colWs opt ++ serV opt (d + 1) v) ++
      serF opt (d + 1) fs ++ indWs opt d ++ ['}'])

/-- Remaining array elements, each preceded by a comma (and pretty newline). -/
def serL (opt : Option Nat) (d : Nat) : List JVal → List Char
  | [] => []
  | e :: es =>
    (',' :: (indWs opt d ++ serV opt d e)) ++ serL opt d es

/-- Remaining object members, each preceded by a comma (and pretty newline). -/
def serF (opt : Option Nat) (d : Nat) : List (String × JVal) → List Char
  | [] => []
  | (k, v) :: fs =>
    (',' :: (indWs opt d ++ serStr k ++ ':' :: (colWs opt ++ serV opt d v))) ++ serF opt d fs
end

/-- `JsonUtils.format(data, 2)`: pretty serialization with the default
two-space indent. -/
def format (v : JVal) : String :=
  String.mk (serV (some 2) 0 v)

/-- `JsonUtils.compact(data)`: minimal-whitespace serialization. -/
def compact (v : JVal) : String :=
  String.mk (serV none 0 v)

/-- JSON whitespace characters. -/
def isWs (c : Char) : Bool :=
  c = ' ' || c = '\n' || c = '\t' || c = '\r'

/-- Drop leading JSON whitespace. -/
def skipWs : List Char → List Char
  | [] => []
  | c :: rest => if isWs c then skipWs rest else c :: rest

/-- ASCII decimal digit test. -/
def isDigitC (c : Char) : Bool :=
  48 ≤ c.toNat && c.toNat ≤ 57

/-- Numeric value of an ASCII digit character. -/
def digToNat (c : Char) : Nat :=
  c.toNat - 48

/-- Value of a most-significant-first digit string. -/
def digitsVal (ds : List Char) : Nat :=
  ds.foldl (fun a c => a * 10 + digToNat c) 0

/-- Modelled from the spec: number production of the grammar check,
restricted to integers (see the module comment).  The input starts at the
first character of the number; the error payload is the suffix at the first
unconsumable character. -/
def pNum : List Char → Except (List Char) (JVal × List Char)
  | [] => .error []
  | c :: rest =>
    if c = '-' then
      match rest.takeWhile isDigitC with
      | [] => .error rest
      | _ => .ok (.num (-(digitsVal (rest.takeWhile isDigitC) : Int)), rest.dropWhile isDigitC)
    else
      match (c :: rest).takeWhile isDigitC with
      | [] => .error (c :: rest)
      | _ => .ok (.num (digitsVal ((c :: rest).takeWhile isDigitC)), (c :: rest).dropWhile isDigitC)

/-- Numeric value of a hex digit character, if it is one. -/
def hexVal (c : Char) : Option Nat :=
  if 48 ≤ c.toNat && c.toNat ≤ 57 then some (c.toNat - 48)
  else if 97 ≤ c.toNat && c.toNat ≤ 102 then some (c.toNat - 87)
  else if 65 ≤ c.toNat && c.toNat ≤ 70 then some (c.toNat - 55)
  else none

/-- Modelled from the spec: string body production (after the opening
quote), with the standard escapes.  Fuel-indexed (each step consumes at
least one character, so fuel above the input length suffices; callers pass
length + 1).  Returns the string contents and the suffix after the closing
quote; the error payload is the suffix at the first unconsumable character.
-/
def pStrBody : Nat → List Char → Except (List Char) (List Char × List Char)
  | 0, cs => .error cs
  | Nat.succ fuel, cs =>
    match cs with
    | [] => .error []
    | c :: rest =>
      if c = '"' then .ok ([], rest)
      else if c = '\\' then
        match rest with
        | [] => .error []
        | e :: rest2 =>
          if e = '"' || e = '\\' || e = '/' || e = 'n' || e = 't' || e = 'r' ||
              e = 'b' || e = 'f' then
            let d : Char :=
              if e = 'n' then '\n' else if e = 't' then '\t'
              else if e = 'r' then '\r' else if e = 'b' then Char.ofNat 8
              else if e = 'f' then Char.ofNat 12 else e
            match pStrBody fuel rest2 with
            | .ok (s, r) => .ok (d :: s, r)
            | .error err => .error err
          else if e = 'u' then
            match rest2 with
            | h1 :: h2 :: h3 :: h4 :: rest3 =>
              match hexVal h1, hexVal h2, hexVal h3, hexVal h4 with
              | some a, some b, some c2, some d2 =>
                match pStrBody fuel rest3 with
                | .ok (s, r) =>
                  .ok (Char.ofNat (a * 4096 + b * 256 + c2 * 16 + d2) :: s, r)
                | .error err => .error err
              | _, _, _, _ => .error rest2
            | _ => .error rest2
          else .error (e :: rest2)
      else if c.toNat < 32 then .error (c :: rest)
      else
        match pStrBody fuel rest with
        | .ok (s, r) => .ok (c :: s, r)
        | .error err => .error err

mutual
/-- Modelled from the spec: the value production of the grammar check.
Fuel-indexed (any fuel at least the size of the value suffices; the top
level passes input length + 1).  The error payload is the suffix at the
first unconsumable character. -/
def pVal : Nat → List Char → Except (List Char) (JVal × List Char)
  | 0, cs => .error cs
  | Nat.succ fuel, cs =>
    match skipWs cs with
    | [] => .error []
    | c :: rest =>
      if c = 'n' then
        match rest with
        | 'u' :: 'l' :: 'l' :: r => .ok (.null, r)
        | _ => .error (c :: rest)
      else if c = 't' then
        match rest with
        | 'r' :: 'u' :: 'e' :: r => .ok (.bool true, r)
        | _ => .error (c :: rest)
      else if c = 'f' then
        match rest with
        | 'a' :: 'l' :: 's' :: 'e' :: r => .ok (.bool false, r)
        | _ => .error (c :: rest)
      else if c = '"' then
        match pStrBody (rest.length + 1) rest with
        | .ok (s, r) => .ok (.str (String.mk s), r)
        | .error err => .error err
      else if c = '[' then
        match skipWs rest with
        | [] => .error []
        | d :: r2 =>
          if d = ']' then .ok (.arr [], r2)
          else
            match pElems fuel (d :: r2) with
            | .ok (es, r3) => .ok (.arr es, r3)
            | .error err => .error err
      else if c = '{' then
        match skipWs rest with
        | [] => .error []
        | d :: r2 =>
          if d = '}' then .ok (.obj [], r2)
          else
            match pFields fuel (d :: r2) with
            | .ok (fs, r3) => .ok (.obj fs, r3)
            | .error err => .error err
      else if c = '-' || isDigitC c then pNum (c :: rest)
      else .error (c :: rest)

/-- Comma-separated values up to the closing bracket of an array. -/
def pElems : Nat → List Char → Except (List Char) (List JVal × List Char)
  | 0, cs => .error cs
  | Nat.succ fuel, cs =>
    match pVal fuel cs with
    | .error err => .error err
    | .ok (v, rest) =>
      match skipWs rest with
      | [] => .error []
      | d :: r2 =>
        if d = ',' then
          match pElems fuel r2 with
          | .ok (es, r3) => .ok (v :: es, r3)
          | .error err => .error err
        else if d = ']' then .ok ([v], r2)
        else .error (d :: r2)

/-- Comma-separated key/value members up to the closing brace of an object. -/
def pFields : Nat → List Char → Except (List Char) (List (String × JVal) × List Char)
  | 0, cs => .error cs
  | Nat.succ fuel, cs =>
    match skipWs cs with
    | [] => .error []
    | c :: rest =>
      if c = '"' then
        match pStrBody (rest.length + 1) rest with
        | .error err => .error err
        | .ok (k, r1) =>
          match skipWs r1 with
          | [] => .error []
          | d :: r2 =>
            if d = ':' then
              match pVal fuel r2 with
              | .error err => .error err
              | .ok (v, r3) =>
                match skipWs r3 with
                | [] => .error []
                | d2 :: r4 =>
                  if d2 = ',' then
                    match pFields fuel r4 with
                    | .ok (fs, r5) => .ok ((String.mk k, v) :: fs, r5)
                    | .error err => .error err
                  else if d2 = '}' then .ok ([(String.mk k, v)], r4)
                  else .error (d2 :: r4)
            else .error (d :: r2)
      else .error (c :: rest)
end

/-- Modelled from the spec: the underlying engine's grammar check.  On
failure it reports the byte offset of the first unconsumable character
(trailing garbage after a valid value is also a failure). -/
def jsonEngine (s : String) : Except Nat JVal :=
  let cs := s.data
  match pVal (cs.length + 1) cs with
  | .ok (v, rest) =>
    match skipWs rest with
    | [] => .ok v
    | c :: r => .error (cs.length - (c :: r).length)
  | .error err => .error (cs.length - err.length)

/-- `JsonParseError` of the source: message plus 1-based line and column. -/
structure JsonParseError where
  message : String
  line : Nat
  column : Nat
deriving Repr, DecidableEq

/-- The result record of `JsonUtils.parse`: `{ data, error }`. -/
structure ParseOutcome where
  data : Option JVal
  error : Option JsonParseError
deriving Repr

/-- JavaScript `string.split('\n')` on the character list. -/
def splitNl : List Char → List (List Char)
  | [] => [[]]
  | c :: rest =>
    if c = '\n' then [] :: splitNl rest
    else
      match splitNl rest with
      | l :: ls => (c :: l) :: ls
      | [] => [[c]]

/-- The catch-branch of `JsonUtils.parse`: from the position extracted from
the engine's message (`none` when the message carries no position, in which
case it falls back to 0), compute the error's line and column via
`substring(0, position).split('\n')`. -/
def mkParseError (s : String) (msg : String) (pos? : Option Nat) : JsonParseError :=
  let position := pos?.getD 0
  let lines := splitNl (s.data.take position)
  { message := msg, line := lines.length, column := (lines.getLastD []).length + 1 }

/-- `JsonUtils.parse`: engine parse; on failure, error localization from the
reported offset. -/
def parse (s : String) : ParseOutcome :=
  match jsonEngine s with
  | .ok v => { data := some v, error := none }
  | .error off => { data := none, error := some (mkParseError s ("Unexpected token") (some off)) }

/-- The `JsonNode` interface of the source.  Optional fields are `Option`s
(`none` = the property is absent / `undefined`); `value` is an `Option`
because JavaScript lets an edit store `undefined` there. -/
inductive JsonNode where
  | mk (key : String) (value : Option JVal) (type : String) (path : String)
      (level : Nat) (expanded : Option Bool) (children : Option (List JsonNode))
      (index : Option Nat) : JsonNode
deriving Repr

def JsonNode.key : JsonNode → String
  | .mk k _ _ _ _ _ _ _ => k

def JsonNode.value : JsonNode → Option JVal
  | .mk _ v _ _ _ _ _ _ => v

def JsonNode.type : JsonNode → String
  | .mk _ _ t _ _ _ _ _ => t

def JsonNode.path : JsonNode → String
  | .mk _ _ _ p _ _ _ _ => p

def JsonNode.level : JsonNode → Nat
  | .mk _ _ _ _ l _ _ _ => l

def JsonNode.expanded : JsonNode → Option Bool
  | .mk _ _ _ _ _ e _ _ => e

def JsonNode.children : JsonNode → Option (List JsonNode)
  | .mk _ _ _ _ _ _ ch _ => ch

def JsonNode.index : JsonNode → Option Nat
  | .mk _ _ _ _ _ _ _ i => i

/-- Replace the `children` field (the object-spread rebuild of the source). -/
def JsonNode.setChildren : JsonNode → Option (List JsonNode) → JsonNode
  | .mk k v t p l e _ i, ch => .mk k v t p l e ch i

/-- The type computation on lines 68 and 87 of JsonUtils:
`Array.isArray(item) ? 'array' : typeof item === 'object' && item !== null ?
'object' : typeof item`.  Note `typeof null` is `'object'`. -/
def typeOfNode : JVal → String
  | .arr _ => "array"
  | .obj _ => "object"
  | .null => "object"
  | .bool _ => "boolean"
  | .num _ => "number"
  | .str _ => "string"

/-- Plain JavaScript `typeof` of an optional value (used by `_addNode` and
`_updateNode`, which do not special-case arrays or null). -/
def typeofJs : Option JVal → String
  | none => "undefined"
  | some .null => "object"
  | some (.arr _) => "object"
  | some (.obj _) => "object"
  | some (.bool _) => "boolean"
  | some (.num _) => "number"
  | some (.str _) => "string"

mutual
/-- `JsonUtils.toJsonTree(data, parentPath, level)`. -/
def toJsonTree (data : JVal) (parentPath : String) (level : Nat) : List JsonNode :=
  match data with
  | .arr items => toTreeArr items 0 parentPath level
  | .obj fields => toTreeObj fields parentPath level
  | _ => []

/-- The `data.forEach((item, index) => ...)` loop of the array branch. -/
def toTreeArr : List JVal → Nat → String → Nat → List JsonNode
  | [], _, _, _ => []
  | item :: rest, i, parentPath, level =>
    let path :=
      if parentPath = "" then "[" ++ toString i ++ "]"
      else parentPath ++ "[" ++ toString i ++ "]"
    let ty := typeOfNode item
    JsonNode.mk (toString i) (some item) ty path level (some (decide (level < 2)))
      (if ty = "object" || ty = "array" then some (toJsonTree item path (level + 1)) else none)
      (some i)
    :: toTreeArr rest (i + 1) parentPath level

/-- The `Object.entries(data).forEach(([key, value]) => ...)` loop. -/
def toTreeObj : List (String × JVal) → String → Nat → List JsonNode
  | [], _, _ => []
  | (key, v) :: rest, parentPath, level =>
    let path := if parentPath = "" then key else parentPath ++ "." ++ key
    let ty := typeOfNode v
    JsonNode.mk key (some v) ty path level (some (decide (level < 2)))
      (if ty = "object" || ty = "array" then some (toJsonTree v path (level + 1)) else none)
      none
    :: toTreeObj rest parentPath level
end

/-- A JavaScript value as produced by `fromJsonTree`: either a stored value
used verbatim, or the `result` array (note `Array.isArray(nodes)` is always
true, so `result` is always an array), whose element slots may have holes
and which may carry non-index expando properties. -/
inductive FVal where
  | js (v : Option JVal)
  | jsarr (elems : List (Option FVal)) (props : List (String × FVal))
deriving Repr

/-- Is a string the canonical form of an array index (as in `result[key]`)? -/
def strIsIndex (s : String) : Bool :=
  match s.data with
  | [] => false
  | ['0'] => true
  | c :: rest => isDigitC c && !(c = '0') && rest.all isDigitC

/-- Numeric value of an index string. -/
def strIndexVal (s : String) : Nat :=
  digitsVal s.data

/-- Set element `i` of a JavaScript array, padding holes with `undefined`. -/
def setElem : List (Option FVal) → Nat → FVal → List (Option FVal)
  | [], 0, x => [some x]
  | [], Nat.succ i, x => none :: setElem [] i x
  | _ :: t, 0, x => some x :: t
  | h :: t, Nat.succ i, x => h :: setElem t i x

/-- Set a named property, replacing an existing entry of the same key. -/
def setProp : List (String × FVal) → String → FVal → List (String × FVal)
  | [], k, x => [(k, x)]
  | (k2, y) :: t, k, x => if k2 = k then (k2, x) :: t else (k2, y) :: setProp t k x

/-- JavaScript `result[key] = x` on an array: an index-shaped key writes an
element, any other key becomes an expando property. -/
def assignF : FVal → String → FVal → FVal
  | .jsarr elems props, key, x =>
    if strIsIndex key then .jsarr (setElem elems (strIndexVal key) x) props
    else .jsarr elems (setProp props key x)
  | .js v, _, _ => .js v

mutual
/-- The `nodes.forEach` loop of `fromJsonTree`, threading the `result`
array through `result[node.key] = ...` assignments. -/
def fromAux : List JsonNode → FVal → FVal
  | [], acc => acc
  | n :: rest, acc => fromAux rest (assignF acc n.key (nodeOut n))

/-- The right-hand side of the assignment for one node: the recursive
conversion of its children when `children` and `expanded` are both truthy,
its stored `value` otherwise. -/
def nodeOut : JsonNode → FVal
  | JsonNode.mk _ v _ _ _ e ch _ =>
    match ch, e with
    | some cs, some true => fromAux cs (FVal.jsarr [] [])
    | _, _ => .js v
end

/-- `JsonUtils.fromJsonTree(nodes)`.  `result` starts as `[]`, since
`Array.isArray(nodes)` is always true. -/
def fromJsonTree (nodes : List JsonNode) : FVal :=
  fromAux nodes (FVal.jsarr [] [])

mutual
/-- Structural (deep) equality of JSON values. -/
def beqV : JVal → JVal → Bool
  | .null, .null => true
  | .bool a, .bool b => a == b
  | .num a, .num b => a == b
  | .str a, .str b => a == b
  | .arr a, .arr b => beqLV a b
  | .obj a, .obj b => beqFV a b
  | _, _ => false

def beqLV : List JVal → List JVal → Bool
  | [], [] => true
  | a :: l1, b :: l2 => beqV a b && beqLV l1 l2
  | _, _ => false

def beqFV : List (String × JVal) → List (String × JVal) → Bool
  | [], [] => true
  | (k1, v1) :: l1, (k2, v2) :: l2 => k1 == k2 && beqV v1 v2 && beqFV l1 l2
  | _, _ => false
end

mutual
/-- Deep equality between a `fromJsonTree` result and a JSON value: a stored
value compares structurally; the `result` array only ever deep-equals a JSON
array (hole-free, expando-free, elementwise equal). -/
def deepEqF : FVal → JVal → Bool
  | .js (some w), v => beqV w v
  | .js none, _ => false
  | .jsarr elems props, .arr xs => props.isEmpty && deepEqL elems xs
  | .jsarr _ _, _ => false

def deepEqL : List (Option FVal) → List JVal → Bool
  | [], [] => true
  | some f :: fs, x :: xs => deepEqF f x && deepEqL fs xs
  | _, _ => false
end

mutual
/-- `JsonUtils.findNodeByPath(nodes, path)`: first depth-first match (each
node is checked before its children, children before later siblings). -/
def findNodeByPath : List JsonNode → String → Option JsonNode
  | [], _ => none
  | n :: rest, p =>
    match findInNode n p with
    | some found => some found
    | none => findNodeByPath rest p

/-- The per-node step of `findNodeByPath`: the node itself, then its
children (when the `children` property is present). -/
def findInNode : JsonNode → String → Option JsonNode
  | JsonNode.mk k v t pa l e ch i, p =>
    if pa = p then some (JsonNode.mk k v t pa l e ch i)
    else
      match ch with
      | some cs => findNodeByPath cs p
      | none => none
end

/-- Index of the last occurrence of a character, as `lastIndexOf`. -/
def lastIdxOf (ch : Char) : List Char → Option Nat
  | [] => none
  | c :: rest =>
    match lastIdxOf ch rest with
    | some k => some (k + 1)
    | none => if c = ch then some 0 else none

/-- JavaScript `string.split(sep)` for a one-character separator. -/
def splitOnC (ch : Char) : List Char → List (List Char)
  | [] => [[]]
  | c :: rest =>
    if c = ch then [] :: splitOnC ch rest
    else
      match splitOnC ch rest with
      | l :: ls => (c :: l) :: ls
      | [] => [[c]]

/-- `path.substring(0, path.lastIndexOf('.'))` — `substring` clamps the
negative end index to 0, so a dotless path yields the empty string. -/
def parentPathOf (s : String) : String :=
  match lastIdxOf '.' s.data with
  | none => ""
  | some i => String.mk (s.data.take i)

/-- `path.split('.').pop()`: the last dot-separated component. -/
def lastSeg (s : String) : String :=
  String.mk ((splitOnC '.' s.data).getLastD [])

/-- The `JsonEditOperation` interface of the source. -/
structure JsonEditOperation where
  type : String
  path : String
  key : Option String := none
  value : Option JVal := none
  oldKey : Option String := none
  newPath : Option String := none
deriving Repr

/-- `JsonUtils._addNode`: only root-level paths (no dot) append a new node
(with no `expanded`, `children` or `index` property); any other path is a
no-op. -/
def addNode (nodes : List JsonNode) (op : JsonEditOperation) : List JsonNode :=
  let parentPath := parentPathOf op.path
  if parentPath = "" then
    nodes ++ [JsonNode.mk (op.key.getD "") op.value (typeofJs op.value)
      (op.key.getD "") 0 none none none]
  else nodes

mutual
/-- `JsonUtils._updateNode` via `findNodeByPath`: mutate the first
depth-first node at the path (value and recomputed `typeof` type), if any.
The returned flag reports whether a node was found. -/
def updateNodeL (p : String) (v : Option JVal) : List JsonNode → List JsonNode × Bool
  | [] => ([], false)
  | n :: rest =>
    match updateInNode p v n with
    | (n2, true) => (n2 :: rest, true)
    | (_, false) =>
      let r2 := updateNodeL p v rest
      (n :: r2.1, r2.2)

/-- The per-node step of `_updateNode`: rewrite this node if its path
matches, otherwise look into its children. -/
def updateInNode (p : String) (v : Option JVal) : JsonNode → JsonNode × Bool
  | JsonNode.mk k va t pa l e ch i =>
    if pa = p then (JsonNode.mk k v (typeofJs v) pa l e ch i, true)
    else
      match ch with
      | some cs =>
        match updateNodeL p v cs with
        | (cs2, true) => (JsonNode.mk k va t pa l e (some cs2) i, true)
        | (_, false) => (JsonNode.mk k va t pa l e ch i, false)
      | none => (JsonNode.mk k va t pa l e ch i, false)
end

/-- `JsonUtils._updateNode`. -/
def updateNode (nodes : List JsonNode) (op : JsonEditOperation) : List JsonNode :=
  (updateNodeL op.path op.value nodes).1

/-- `JsonUtils._deleteNode`: only root-level paths (no dot) filter the
top-level sequence by key; any other path is a no-op. -/
def deleteNode (nodes : List JsonNode) (op : JsonEditOperation) : List JsonNode :=
  let parentPath := parentPathOf op.path
  let key := lastSeg op.path
  if parentPath = "" then nodes.filter (fun n => !(n.key = key)) else nodes

/-- `JsonUtils._moveNode`: a no-op. -/
def moveNode (nodes : List JsonNode) (_op : JsonEditOperation) : List JsonNode :=
  nodes

/-- `JsonUtils.applyEdit`.  The source first deep-clones the input via
`JSON.parse(JSON.stringify(root))`, which is the identity at this level of
abstraction (every field is JSON-representable and absent properties stay
absent); the clone exists only to protect the caller's reference. -/
def applyEdit (root : List JsonNode) (op : JsonEditOperation) : List JsonNode :=
  let newRoot := root
  if op.type = "add" then addNode newRoot op
  else if op.type = "update" then updateNode newRoot op
  else if op.type = "delete" then deleteNode newRoot op
  else if op.type = "move" then moveNode newRoot op
  else newRoot

/-- The `{...node, expanded: !node.expanded}` rebuild: JavaScript `!` treats
an absent flag as false, so the new flag is always present. -/
def flipExpanded : JsonNode → JsonNode
  | .mk k v t p l e ch i => .mk k v t p l (some (!(e.getD false))) ch i

mutual
/-- The `updateExpanded` closure inside `toggleNode` of the editor
component (the `nodes.map` over the sibling sequence). -/
def updateExpanded (path : String) : List JsonNode → List JsonNode
  | [] => []
  | n :: rest => updateExpandedN path n :: updateExpanded path rest

/-- Per-node body of `updateExpanded`: flip `expanded` on a node at the
path, rebuild the children of any other node that has a children property,
keep leaves as they are. -/
def updateExpandedN (path : String) : JsonNode → JsonNode
  | JsonNode.mk k v t pa l e ch i =>
    if pa = path then flipExpanded (JsonNode.mk k v t pa l e ch i)
    else
      match ch with
      | some cs => JsonNode.mk k v t pa l e (some (updateExpanded path cs)) i
      | none => JsonNode.mk k v t pa l e ch i
end

/-- Word character of the JavaScript regex class `\w`. -/
def isWordChar (c : Char) : Bool :=
  c.isAlpha || c.isDigit || c = '_'

/-- One segment of the `validatePath` regex: `\w+` or `\[\d+\]`.  Returns
the rest of the input on success (the alternation is deterministic: a
bracket segment starts with `[`, a word segment with a word character). -/
def pathSeg (cs : List Char) : Option (List Char) :=
  match cs with
  | [] => none
  | c :: rest =>
    if c = '[' then
      match rest.takeWhile isDigitC with
      | [] => none
      | _ =>
        match rest.dropWhile isDigitC with
        | ']' :: r => some r
        | _ => none
    else
      match (c :: rest).takeWhile isWordChar with
      | [] => none
      | _ => some ((c :: rest).dropWhile isWordChar)

/-- The `(\.(\w+|\[\d+\]))*$` tail of the `validatePath` regex, with fuel
(each segment consumes at least one character, so fuel above the input
length suffices). -/
def pathTail : Nat → List Char → Bool
  | _, [] => true
  | 0, _ => false
  | Nat.succ fuel, c :: rest =>
    if c = '.' then
      match pathSeg rest with
      | some r => pathTail fuel r
      | none => false
    else false

/-- `JsonUtils.validatePath`: the regex `^(\w+|\[\d+\])(\.(\w+|\[\d+\]))*$`. -/
def validatePath (s : String) : Bool :=
  match pathSeg s.data with
  | some r => pathTail (r.length + 1) r
  | none => false

mutual
/-- All `path` fields of a tree, depth first. -/
def allPathsL : List JsonNode → List String
  | [] => []
  | n :: rest => allPathsN n ++ allPathsL rest

def allPathsN : JsonNode → List String
  | .mk _ _ _ pa _ _ ch _ =>
    pa :: (match ch with | some cs => allPathsL cs | none => [])
end

/-- One path segment in canonical text form: `.field` (word characters) or
`[i]` (digits), as appended below a parent path. -/
def isOneSegExt (l : List Char) : Bool :=
  match l with
  | '.' :: rest => !(rest.isEmpty) && rest.all isWordChar
  | '[' :: rest =>
    match rest.takeWhile isDigitC with
    | [] => false
    | _ => rest.dropWhile isDigitC = [']']
  | _ => false

/-- Is `cp` equal to `pp` extended by exactly one segment? -/
def segExt (pp cp : String) : Bool :=
  cp.data.take pp.data.length = pp.data && isOneSegExt (cp.data.drop pp.data.length)

mutual
/-- Modelled from the spec: the TreeNode invariant — `children` is present
iff `type` is object or array, every child's `level` is the parent's plus
one, and every child's `path` extends the parent's by exactly one segment. -/
def treeInvL : List JsonNode → Bool
  | [] => true
  | n :: rest => treeInvN n && treeInvL rest

/-- The TreeNode invariant at one node. -/
def treeInvN : JsonNode → Bool
  | JsonNode.mk _ _ t pa l _ ch _ =>
    (ch.isSome == (t == "object" || t == "array")) &&
    match ch with
    | some cs => childrenOk pa l cs && treeInvL cs
    | none => true

/-- Level and path conditions for each child of a node. -/
def childrenOk (pa : String) (l : Nat) : List JsonNode → Bool
  | [] => true
  | c :: rest => (c.level == l + 1) && segExt pa c.path && childrenOk pa l rest
end

/-- A parse can resume safely after a serialized value iff the remainder
does not begin with a digit (the number production is maximal). -/
def delimOk : List Char → Bool
  | [] => true
  | c :: _ => !(isDigitC c)

/-- Whitespace-only character list. -/
def wsOnly (l : List Char) : Bool :=
  l.all isWs

mutual
/-- Fuel lower bound for `pVal` on a serialized value. -/
def szV : JVal → Nat
  | .null => 1
  | .bool _ => 1
  | .num _ => 1
  | .str _ => 1
  | .arr l => szL l + 1
  | .obj l => szF l + 1

/-- Fuel lower bound for `pElems` on serialized elements. -/
def szL : List JVal → Nat
  | [] => 0
  | e :: es => szV e + szL es + 1

/-- Fuel lower bound for `pFields` on serialized members. -/
def szF : List (String × JVal) → Nat
  | [] => 0
  | (_, v) :: fs => szV v + szF fs + 1
end

/-- Are the keys of an object's member list pairwise distinct? -/
def keysDistinct : List (String × JVal) → Bool
  | [] => true
  | (k, _) :: fs => fs.all (fun f => !(f.1 = k)) && keysDistinct fs

mutual
/-- The spec's Value invariant: object keys unique, recursively. -/
def validV : JVal → Bool
  | .null => true
  | .bool _ => true
  | .num _ => true
  | .str _ => true
  | .arr l => validL l
  | .obj l => keysDistinct l && validF l

/-- `validV` on every element of an array. -/
def validL : List JVal → Bool
  | [] => true
  | e :: es => validV e && validL es

/-- `validV` on every member value of an object. -/
def validF : List (String × JVal) → Bool
  | [] => true
  | (_, v) :: fs => validV v && validF fs
end

/-! Concrete inputs used by the claim theorems. -/

/-- The value of the object text `{"a":1}`. -/
def vObjA : JVal := .obj [("a", .num 1)]

/-- The value of `[{"a":1}]` (an object nested in an array). -/
def vNested : JVal := .arr [.obj [("a", .num 1)]]

/-- The value of the end-to-end scenario input `{"a":1,"b":[2,3]}`. -/
def vDemo : JVal := .obj [("a", .num 1), ("b", .arr [.num 2, .num 3])]

/-- The tree projected from `vObjA`. -/
def tObjA : List JsonNode := toJsonTree vObjA "" 0

/-- The tree projected from `vDemo`. -/
def tDemo : List JsonNode := toJsonTree vDemo "" 0

/-- The edit `Delete{path:"b[0]"}` of the end-to-end scenario. -/
def delB0 : JsonEditOperation := { type := "delete", path := "b[0]" }

/-- An update addressed at a path that resolves to no node of `tObjA`. -/
def updZzz : JsonEditOperation := { type := "update", path := "zzz", value := some (.num 5) }

/-- An update storing an (empty) object value at the scalar node `a`. -/
def updObjVal : JsonEditOperation := { type := "update", path := "a", value := some (.obj []) }

/-- The malformed one-line input `'{"a": }'` (offending `}` at offset 6). -/
def brokenOneLine : String := String.mk ['\x7b', '"', 'a', '"', ':', ' ', '\x7d']

/-- A two-line input whose second line is broken at its sixth column. -/
def brokenTwoLine : String := String.mk ['\x7b', '\n', '"', 'a', '"', ':', ' ', '\x7d']

/-- A childless node whose `expanded` property is absent, as `_addNode`
creates (the `JsonNode` interface marks `expanded` optional). -/
def nodeNoExp : JsonNode := .mk "k" (some .null) "object" "p" 0 none none none

mutual
/-- Erase every `expanded` flag in a sibling sequence (projection used to
state that toggling changes nothing except `expanded` flags). -/
def eraseExpL : List JsonNode → List JsonNode
  | [] => []
  | n :: rest => eraseExpN n :: eraseExpL rest

/-- Erase the `expanded` flag of a node and, recursively, of its children. -/
def eraseExpN : JsonNode → JsonNode
  | .mk k v t pa l _ ch i =>
    .mk k v t pa l none (match ch with | some cs => some (eraseExpL cs) | none => none) i
end

mutual
/-- Does every node of the sequence (recursively) carry a present
`expanded` flag, as every node built by `toJsonTree` does? -/
def allSetL : List JsonNode → Bool
  | [] => true
  | n :: rest => allSetN n && allSetL rest

/-- Does this node and all its descendants carry a present `expanded` flag? -/
def allSetN : JsonNode → Bool
  | .mk _ _ _ _ _ e ch _ =>
    e.isSome && (match ch with | some cs => allSetL cs | none => true)
end

/-!
Claim theorems.
-/

/-- C1 (code bug): the tree round-trip is broken.  `fromJsonTree` initializes
`result` from `Array.isArray(nodes)` — which is always true — so converting
the tree of the object `{"a":1}` yields a JavaScript array carrying `a` as an
expando property, which is not deep-equal to the object; and the `expanded`
flag does affect round-trip fidelity: for `[{"a":1}]` the conversion is
deep-equal to the input exactly when the object node is collapsed (the
collapsed branch returns the stored value verbatim, the expanded branch
rebuilds through the broken array path). -/
theorem c1_object_roundtrip_fails :
    fromJsonTree (toJsonTree vObjA "" 0) = FVal.jsarr [] [("a", FVal.js (some (.num 1)))] ∧
    deepEqF (fromJsonTree (toJsonTree vObjA "" 0)) vObjA = false ∧
    deepEqF (fromJsonTree (toJsonTree vNested "" 0)) vNested = false ∧
    deepEqF (fromJsonTree (updateExpanded ("[0]") (toJsonTree vNested "" 0))) vNested = true := by
  refine ⟨rfl, rfl, rfl, rfl⟩

/-- C2 (code bug): `_deleteNode` only special-cases dotless paths, comparing
the whole path text against top-level keys, so `Delete{path:"b[0]"}` is a
no-op on the tree of `{"a":1,"b":[2,3]}`: the returned tree is the unchanged
input and `b` still has its two children (claimed: one child holding 3). -/
theorem c2_delete_b0_is_noop :
    applyEdit tDemo delB0 = tDemo ∧
    (findNodeByPath tDemo ("b")).map (fun n => n.children.map List.length) =
      some (some 2) := by
  refine ⟨rfl, rfl⟩

/-- C3 (code bug): an `Update` whose path resolves to no node leaves the
tree unchanged, but no `NotFound` (nor any other) failure is reported —
`applyEdit` returns a bare node sequence with no error channel at all. -/
theorem c3_update_missing_path_silent :
    findNodeByPath tObjA ("zzz") = none ∧ applyEdit tObjA updZzz = tObjA := by
  refine ⟨rfl, rfl⟩

/-- C8 (code bug): the `validatePath` regex demands a dot before every
segment after the first, but `toJsonTree` appends index segments without a
dot, so the canonical producer path `b[0]` (present in the tree of
`{"a":1,"b":[2,3]}`) is rejected. -/
theorem c8_validatePath_rejects_producer_path :
    validatePath ("b[0]") = false ∧ "b[0]" ∈ allPathsL tDemo := by
  refine ⟨rfl, by decide⟩

/-- C9 (code bug): `_updateNode` recomputes `type` with bare `typeof` but
never materializes children, so updating the scalar node `a` of `{"a":1}`
with an object value yields a node of type `object` without a `children`
property, violating the TreeNode invariant (which the projected input tree
satisfied). -/
theorem c9_update_breaks_invariant :
    treeInvL tObjA = true ∧ treeInvL (applyEdit tObjA updObjVal) = false := by
  refine ⟨rfl, rfl⟩

theorem splitNl_ne_nil (l : List Char) : splitNl l ≠ [] := by
  match l with
  | [] => simp [splitNl]
  | c :: rest =>
    simp only [splitNl]
    by_cases h : c = '\n'
    · simp [h]
    · rw [if_neg h]
      rcases heq : splitNl rest with _ | ⟨a, b⟩ <;> simp

theorem splitNl_length (l : List Char) :
    (splitNl l).length = l.count '\n' + 1 := by
  induction l with
  | nil => simp [splitNl]
  | cons c rest ih =>
    simp only [splitNl]
    by_cases h : c = '\n'
    · simp [h, List.count_cons, ih]
    · rw [if_neg h]
      rcases heq : splitNl rest with _ | ⟨a, b⟩
      · exact absurd heq (splitNl_ne_nil rest)
      · rw [heq] at ih
        simp only [List.length_cons] at ih
        simp [List.count_cons, h, ih]

theorem getLastD_irrel {α : Type} (l : List α) (a b : α) (h : l ≠ []) :
    l.getLastD a = l.getLastD b := by
  match l with
  | [x] => rfl
  | x :: y :: t => simp only [List.getLastD_cons]

theorem lastIdxOf_none_iff (c : Char) (l : List Char) :
    lastIdxOf c l = none ↔ l.count c = 0 := by
  induction l with
  | nil => simp [lastIdxOf]
  | cons x rest ih =>
    simp only [lastIdxOf, List.count_cons]
    rcases heq : lastIdxOf c rest with _ | k
    · have hcnt := ih.mp heq
      by_cases hx : x = c
      · simp [hx, hcnt]
      · simp [hx, hcnt]
    · have hcnt : rest.count c ≠ 0 := by
        intro h0
        rw [ih.mpr h0] at heq
        cases heq
      by_cases hx : x = c <;> simp [hx] <;> try omega

theorem lastIdxOf_lt_length {c : Char} {l : List Char} {k : Nat}
    (h : lastIdxOf c l = some k) : k < l.length := by
  induction l generalizing k with
  | nil => simp [lastIdxOf] at h
  | cons x rest ih =>
    simp only [lastIdxOf] at h
    rcases heq : lastIdxOf c rest with _ | k2 <;> rw [heq] at h
    · by_cases hx : x = c
      · rw [if_pos hx] at h
        cases h; simp
      · rw [if_neg hx] at h; cases h
    · cases h
      have := ih heq
      simp only [List.length_cons]
      omega

theorem splitNl_lastLine (l : List Char) :
    ((splitNl l).getLastD []).length =
      (match lastIdxOf '\n' l with
       | some k => l.length - k - 1
       | none => l.length) := by
  induction l with
  | nil => simp [splitNl, lastIdxOf]
  | cons c rest ih =>
    by_cases h : c = '\n'
    · subst h
      have hsplit : splitNl ('\n' :: rest) = [] :: splitNl rest := by
        simp [splitNl]
      have hlast : ((([] : List Char) :: splitNl rest).getLastD []).length =
          ((splitNl rest).getLastD []).length := by
        rw [List.getLastD_cons]
      rw [hsplit, hlast]
      rcases heq : lastIdxOf '\n' rest with _ | k <;> rw [heq] at ih
      · have ih2 : ((splitNl rest).getLastD []).length = rest.length := ih
        have hidx : lastIdxOf '\n' ('\n' :: rest) = some 0 := by
          simp [lastIdxOf, heq]
        rw [hidx]
        show ((splitNl rest).getLastD []).length = ('\n' :: rest).length - 0 - 1
        simp only [List.length_cons]
        omega
      · have ih2 : ((splitNl rest).getLastD []).length = rest.length - k - 1 := ih
        have hk := lastIdxOf_lt_length heq
        have hidx : lastIdxOf '\n' ('\n' :: rest) = some (k + 1) := by
          simp [lastIdxOf, heq]
        rw [hidx]
        show ((splitNl rest).getLastD []).length = ('\n' :: rest).length - (k + 1) - 1
        simp only [List.length_cons]
        omega
    · rcases hs : splitNl rest with _ | ⟨a, b⟩
      · exact absurd hs (splitNl_ne_nil rest)
      · have hsplit : splitNl (c :: rest) = (c :: a) :: b := by
          simp only [splitNl]
          rw [if_neg h, hs]
        rw [hs] at ih
        rw [hsplit]
        rcases heq : lastIdxOf '\n' rest with _ | k <;> rw [heq] at ih
        · -- rest has no newline: splitNl rest is the single chunk a
          have ih2 : (((a :: b) : List (List Char)).getLastD []).length = rest.length := ih
          have hone : b = [] := by
            have hlen := splitNl_length rest
            rw [hs, (lastIdxOf_none_iff '\n' rest).mp heq] at hlen
            simp only [List.length_cons] at hlen
            have hb : b.length = 0 := by omega
            exact List.eq_nil_of_length_eq_zero hb
          subst hone
          have hidx : lastIdxOf '\n' (c :: rest) = none := by
            simp [lastIdxOf, heq, h]
          rw [hidx]
          show (((c :: a) :: ([] : List (List Char))).getLastD []).length = (c :: rest).length
          rw [List.getLastD_cons, List.getLastD_nil] at ih2 ⊢
          simp only [List.length_cons]
          omega
        · -- rest has a newline: the last chunk is unchanged
          have ih2 : (((a :: b) : List (List Char)).getLastD []).length =
              rest.length - k - 1 := ih
          have hne : b ≠ [] := by
            intro hb
            subst hb
            have hlen := splitNl_length rest
            rw [hs] at hlen
            simp only [List.length_cons, List.length_nil] at hlen
            have hc0 : rest.count '\n' = 0 := by omega
            rw [(lastIdxOf_none_iff '\n' rest).mpr hc0] at heq
            cases heq
          have hidx : lastIdxOf '\n' (c :: rest) = some (k + 1) := by
            simp [lastIdxOf, heq]
          rw [hidx]
          show (((c :: a) :: b).getLastD []).length = (c :: rest).length - (k + 1) - 1
          rw [List.getLastD_cons] at ih2 ⊢
          rw [getLastD_irrel b (c :: a) a hne]
          rw [ih2]
          simp only [List.length_cons]
          omega


theorem c5_error_localization :
    (∀ (s msg : String) (pos : Nat), pos ≤ s.data.length →
      (mkParseError s msg (some pos)).line = (s.data.take pos).count '\n' + 1 ∧
      (mkParseError s msg (some pos)).column =
        (match lastIdxOf '\n' (s.data.take pos) with
         | some k => pos - k
         | none => pos + 1)) ∧
    (parse brokenOneLine).error =
      some { message := "Unexpected token", line := 1, column := 7 } ∧
    (parse brokenTwoLine).error =
      some { message := "Unexpected token", line := 2, column := 6 } := by
  refine ⟨fun s msg pos hpos => ⟨?_, ?_⟩, rfl, rfl⟩
  · simpa [mkParseError] using splitNl_length (s.data.take pos)
  · have h := splitNl_lastLine (s.data.take pos)
    have hlen : (s.data.take pos).length = pos := by
      rw [List.length_take]; omega
    have hcol : (mkParseError s msg (some pos)).column =
        ((splitNl (s.data.take pos)).getLastD []).length + 1 := rfl
    rw [hcol]
    rcases hIdx : lastIdxOf '\n' (s.data.take pos) with _ | k <;> rw [hIdx] at h
    · have h2 : ((splitNl (s.data.take pos)).getLastD []).length =
          (s.data.take pos).length := h
      show ((splitNl (s.data.take pos)).getLastD []).length + 1 = pos + 1
      omega
    · have h2 : ((splitNl (s.data.take pos)).getLastD []).length =
          (s.data.take pos).length - k - 1 := h
      have hk : k < (s.data.take pos).length := lastIdxOf_lt_length hIdx
      show ((splitNl (s.data.take pos)).getLastD []).length + 1 = pos - k
      omega

theorem c5_error_localization_witness :
    (mkParseError brokenTwoLine ("x") (some 7)).line = 2 ∧
    (mkParseError brokenTwoLine ("x") (some 7)).column = 6 := by
  have h := c5_error_localization.1 brokenTwoLine ("x") 7 (by decide)
  refine ⟨?_, ?_⟩
  · rw [h.1]; rfl
  · rw [h.2]; rfl

/-- C10 (confirmed, spec-modelled engine): `parse` is total and returns a
record with exactly one of `data`/`error` non-null; every reported error
has line and column at least 1; and when the engine message carries no
position the computation falls back to offset 0, giving line 1, column 1. -/
theorem c10_parse_shape :
    (∀ s : String,
      ((parse s).data.isSome = true ∧ (parse s).error = none) ∨
      ((parse s).data = none ∧ (parse s).error.isSome = true)) ∧
    (∀ (s : String) (e : JsonParseError),
      (parse s).error = some e → 1 ≤ e.line ∧ 1 ≤ e.column) ∧
    (∀ s msg : String,
      (mkParseError s msg none).line = 1 ∧ (mkParseError s msg none).column = 1) := by
  refine ⟨fun s => ?_, fun s e he => ?_, fun s msg => ⟨rfl, rfl⟩⟩
  · cases h : jsonEngine s with
    | ok v => left; simp [parse, h]
    | error off => right; simp [parse, h]
  · cases h : jsonEngine s with
    | ok v => simp [parse, h] at he
    | error off =>
      simp only [parse, h, Option.some.injEq] at he
      subst he
      refine ⟨?_, ?_⟩
      · have hline : (mkParseError s ("Unexpected token") (some off)).line =
            (splitNl (s.data.take off)).length := rfl
        rw [hline]
        have h2 := splitNl_ne_nil (s.data.take off)
        rcases hsp : splitNl (s.data.take off) with _ | ⟨a, b⟩
        · exact absurd hsp h2
        · simp
      · exact Nat.le_add_left 1 _

theorem c10_parse_shape_witness :
    1 ≤ (JsonParseError.mk ("Unexpected token") 1 1).line ∧
    1 ≤ (JsonParseError.mk ("Unexpected token") 1 1).column :=
  c10_parse_shape.2.1 ("x") (JsonParseError.mk ("Unexpected token") 1 1) rfl

mutual
theorem updExp_invol_L (p : String) :
    ∀ t : List JsonNode, allSetL t = true →
      updateExpanded p (updateExpanded p t) = t
  | [], _ => rfl
  | n :: rest, h => by
    have hn : allSetN n = true := by
      simp only [allSetL, Bool.and_eq_true] at h; exact h.1
    have hr : allSetL rest = true := by
      simp only [allSetL, Bool.and_eq_true] at h; exact h.2
    simp only [updateExpanded]
    rw [updExp_invol_N p n hn, updExp_invol_L p rest hr]
termination_by t => sizeOf t
decreasing_by all_goals simp_wf; all_goals omega

theorem updExp_invol_N (p : String) :
    ∀ n : JsonNode, allSetN n = true →
      updateExpandedN p (updateExpandedN p n) = n
  | .mk k v t pa l e none i, h => by
    by_cases hp : pa = p
    · rcases e with _ | b
      · simp [allSetN] at h
      · simp [updateExpandedN, flipExpanded, hp]
    · simp [updateExpandedN, hp]
  | .mk k v t pa l e (some cs) i, h => by
    have hcs : allSetL cs = true := by
      simp only [allSetN, Bool.and_eq_true] at h; exact h.2
    by_cases hp : pa = p
    · rcases e with _ | b
      · simp [allSetN] at h
      · simp [updateExpandedN, flipExpanded, hp]
    · simp only [updateExpandedN, if_neg hp]
      rw [updExp_invol_L p cs hcs]
termination_by n => sizeOf n
decreasing_by all_goals simp_wf; all_goals omega
end

mutual
theorem updExp_erase_L (p : String) :
    ∀ t : List JsonNode, eraseExpL (updateExpanded p t) = eraseExpL t
  | [] => rfl
  | n :: rest => by
    simp only [updateExpanded, eraseExpL]
    rw [updExp_erase_N p n, updExp_erase_L p rest]
termination_by t => sizeOf t
decreasing_by all_goals simp_wf; all_goals omega

theorem updExp_erase_N (p : String) :
    ∀ n : JsonNode, eraseExpN (updateExpandedN p n) = eraseExpN n
  | .mk k v t pa l e none i => by
    by_cases hp : pa = p
    · simp [updateExpandedN, flipExpanded, eraseExpN, hp]
    · simp [updateExpandedN, hp]
  | .mk k v t pa l e (some cs) i => by
    by_cases hp : pa = p
    · simp [updateExpandedN, flipExpanded, eraseExpN, hp]
    · simp only [updateExpandedN, if_neg hp]
      simp only [eraseExpN]
      rw [updExp_erase_L p cs]
termination_by n => sizeOf n
decreasing_by all_goals simp_wf; all_goals omega
end

mutual
theorem updExp_find_L (p : String) :
    ∀ t : List JsonNode,
      findNodeByPath (updateExpanded p t) p = (findNodeByPath t p).map flipExpanded
  | [] => rfl
  | n :: rest => by
    simp only [updateExpanded, findNodeByPath]
    rw [updExp_find_N p n]
    rcases hf : findInNode n p with _ | x
    · simp only [Option.map_none]
      exact updExp_find_L p rest
    · simp
termination_by t => sizeOf t
decreasing_by all_goals simp_wf; all_goals omega

theorem updExp_find_N (p : String) :
    ∀ n : JsonNode,
      findInNode (updateExpandedN p n) p = (findInNode n p).map flipExpanded
  | .mk k v t pa l e none i => by
    by_cases hp : pa = p
    · simp [updateExpandedN, findInNode, flipExpanded, hp]
    · simp [updateExpandedN, findInNode, hp]
  | .mk k v t pa l e (some cs) i => by
    by_cases hp : pa = p
    · simp [updateExpandedN, findInNode, flipExpanded, hp]
    · simp only [updateExpandedN, if_neg hp]
      simp only [findInNode, if_neg hp]
      exact updExp_find_L p cs
termination_by n => sizeOf n
decreasing_by all_goals simp_wf; all_goals omega
end

mutual
theorem updExp_findq_L (p q : String) (hq : q ≠ p) :
    ∀ t : List JsonNode,
      (findNodeByPath (updateExpanded p t) q).map JsonNode.expanded =
        (findNodeByPath t q).map JsonNode.expanded
  | [] => rfl
  | n :: rest => by
    simp only [updateExpanded, findNodeByPath]
    have hn := updExp_findq_N p q hq n
    rcases hf : findInNode n q with _ | x
    · rw [hf] at hn
      simp at hn
      rcases hf2 : findInNode (updateExpandedN p n) q with _ | y
      · exact updExp_findq_L p q hq rest
      · rw [hf2] at hn
        simp at hn
    · rw [hf] at hn
      rcases hf2 : findInNode (updateExpandedN p n) q with _ | y
      · rw [hf2] at hn
        simp at hn
      · rw [hf2] at hn
        simpa using hn
termination_by t => sizeOf t
decreasing_by all_goals simp_wf; all_goals omega

theorem updExp_findq_N (p q : String) (hq : q ≠ p) :
    ∀ n : JsonNode,
      (findInNode (updateExpandedN p n) q).map JsonNode.expanded =
        (findInNode n q).map JsonNode.expanded
  | .mk k v t pa l e none i => by
    have hqp : ¬(p = q) := fun hc => hq hc.symm
    by_cases hp : pa = p
    · have hpq : ¬(pa = q) := by rw [hp]; exact hqp
      simp [updateExpandedN, findInNode, flipExpanded, hp, hpq, hqp]
    · by_cases hpq : pa = q
      · simp [updateExpandedN, findInNode, JsonNode.expanded, hp, hpq, hq]
      · simp [updateExpandedN, findInNode, hp, hpq]
  | .mk k v t pa l e (some cs) i => by
    have hqp : ¬(p = q) := fun hc => hq hc.symm
    by_cases hp : pa = p
    · have hpq : ¬(pa = q) := by rw [hp]; exact hqp
      simp [updateExpandedN, findInNode, flipExpanded, hp, hpq, hqp]
    · by_cases hpq : pa = q
      · simp [updateExpandedN, findInNode, JsonNode.expanded, hp, hpq, hq]
      · simp only [updateExpandedN, if_neg hp]
        simp only [findInNode, if_neg hpq]
        exact updExp_findq_L p q hq cs
termination_by n => sizeOf n
decreasing_by all_goals simp_wf; all_goals omega
end

/-- C7 (corrected): the claim as stated fails for trees containing a node
with an absent `expanded` property — toggling such a node twice leaves
`expanded: false` behind, which is not structurally equal to the absent
flag (see the counterexample).  Amended with the hypothesis that every
node's `expanded` flag is present (true of every tree `toJsonTree`
produces), the claim holds: double toggle is the identity; a single toggle
changes nothing but `expanded` flags (the `eraseExpL` projection is
invariant); the node found at the toggled path is exactly the old node with
its flag flipped; and the flag of a node found at any other path is
unchanged. -/
theorem c7_toggle_pairs_amended (t : List JsonNode) (p : String)
    (h : allSetL t = true) :
    updateExpanded p (updateExpanded p t) = t ∧
    eraseExpL (updateExpanded p t) = eraseExpL t ∧
    findNodeByPath (updateExpanded p t) p = (findNodeByPath t p).map flipExpanded ∧
    (∀ q : String, q ≠ p →
      (findNodeByPath (updateExpanded p t) q).map JsonNode.expanded =
        (findNodeByPath t q).map JsonNode.expanded) :=
  ⟨updExp_invol_L p t h, updExp_erase_L p t, updExp_find_L p t,
    fun q hq => updExp_findq_L p q hq t⟩

theorem c7_toggle_pairs_counterexample :
    updateExpanded ("p") (updateExpanded ("p") [nodeNoExp]) ≠ [nodeNoExp] := by
  intro hcon
  have h2 : (some false : Option Bool) = none :=
    congrArg (fun l => (l.headD nodeNoExp).expanded) hcon
  exact Option.noConfusion h2

theorem c7_toggle_pairs_amended_witness :
    updateExpanded ("b[0]") (updateExpanded ("b[0]") tDemo) = tDemo ∧
    (findNodeByPath (updateExpanded ("b[0]") tDemo) ("a")).map JsonNode.expanded =
      (findNodeByPath tDemo ("a")).map JsonNode.expanded :=
  ⟨(c7_toggle_pairs_amended tDemo ("b[0]") rfl).1,
   (c7_toggle_pairs_amended tDemo ("b[0]") rfl).2.2.2 ("a") (by decide)⟩

theorem skipWs_not_ws {c : Char} (t : List Char) (h : isWs c = false) :
    skipWs (c :: t) = c :: t := by
  simp [skipWs, h]

theorem skipWs_ws_append {w : List Char} (l : List Char) (h : wsOnly w = true) :
    skipWs (w ++ l) = skipWs l := by
  induction w with
  | nil => rfl
  | cons c t ih =>
    simp only [wsOnly, List.all_cons, Bool.and_eq_true] at h
    rw [List.cons_append]
    simp only [skipWs, h.1, if_true]
    exact ih (by simp [wsOnly, h.2])

theorem wsOnly_nlIndent (n : Nat) : wsOnly (nlIndent n) = true := by
  simp only [nlIndent, wsOnly, List.all_cons, Bool.and_eq_true]
  constructor
  · decide
  · rw [List.all_eq_true]
    intro c hc
    rw [List.eq_of_mem_replicate hc]
    decide

theorem wsOnly_indWs (opt : Option Nat) (d : Nat) : wsOnly (indWs opt d) = true := by
  cases opt with
  | none => rfl
  | some w => exact wsOnly_nlIndent (w * d)

theorem wsOnly_colWs (opt : Option Nat) : wsOnly (colWs opt) = true := by
  cases opt with
  | none => rfl
  | some w => rfl

theorem digitChar_facts (d : Nat) :
    isWs (digitChar d) = false ∧ isDigitC (digitChar d) = true := by
  match d with
  | 0 => decide
  | 1 => decide
  | 2 => decide
  | 3 => decide
  | 4 => decide
  | 5 => decide
  | 6 => decide
  | 7 => decide
  | 8 => decide
  | n + 9 =>
    have h9 : digitChar (n + 9) = '9' := rfl
    rw [h9]
    decide

theorem digToNat_digitChar {d : Nat} (h : d < 10) : digToNat (digitChar d) = d := by
  interval_cases d <;> decide

theorem digit_not_special {c : Char} (h : isDigitC c = true) :
    isWs c = false ∧ c ≠ ']' ∧ c ≠ '}' ∧ c ≠ ',' ∧ c ≠ '-' ∧ c ≠ 'n' ∧ c ≠ 't' ∧
    c ≠ 'f' ∧ c ≠ '"' ∧ c ≠ '[' ∧ c ≠ '{' := by
  refine ⟨?_, ?_, ?_, ?_, ?_, ?_, ?_, ?_, ?_, ?_, ?_⟩
  · by_contra hws
    simp only [Bool.not_eq_false] at hws
    have hor : ((c = ' ' ∨ c = '\n') ∨ c = '\t') ∨ c = '\r' := by
      simpa [isWs] using hws
    rcases hor with ((hc | hc) | hc) | hc <;> (rw [hc] at h; exact absurd h (by decide))
  all_goals (intro hc; rw [hc] at h; exact absurd h (by decide))

theorem takeWhile_all_append {p : Char → Bool} {ds : List Char} (rest : List Char)
    (h : ∀ c ∈ ds, p c = true) :
    (ds ++ rest).takeWhile p = ds ++ rest.takeWhile p ∧
    (ds ++ rest).dropWhile p = rest.dropWhile p := by
  induction ds with
  | nil => simp
  | cons c t ih =>
    have hc : p c = true := h c (by simp)
    have ht := ih (fun c2 hc2 => h c2 (by simp [hc2]))
    simp only [List.cons_append, List.takeWhile_cons, List.dropWhile_cons, hc, if_true]
    exact ⟨by rw [ht.1], ht.2⟩

theorem delim_takeWhile {rest : List Char} (h : delimOk rest = true) :
    rest.takeWhile isDigitC = [] ∧ rest.dropWhile isDigitC = rest := by
  match rest with
  | [] => exact ⟨rfl, rfl⟩
  | c :: t =>
    simp only [delimOk, Bool.not_eq_true'] at h
    simp [List.takeWhile_cons, List.dropWhile_cons, h]

theorem digitsVal_append_single (ds : List Char) (c : Char) :
    digitsVal (ds ++ [c]) = digitsVal ds * 10 + digToNat c := by
  simp [digitsVal, List.foldl_append]

theorem natDigitsAux_spec : ∀ (fuel n : Nat), n < fuel →
    (∀ c ∈ natDigitsAux fuel n, isDigitC c = true) ∧
    natDigitsAux fuel n ≠ [] ∧
    digitsVal (natDigitsAux fuel n) = n
  | fuel + 1, n, _h => by
    by_cases h10 : n < 10
    · simp only [natDigitsAux, if_pos h10]
      refine ⟨?_, by simp, ?_⟩
      · intro c hc
        simp only [List.mem_singleton] at hc
        subst hc
        exact (digitChar_facts n).2
      · have hdd := digToNat_digitChar h10
        simp [digitsVal]
        omega
    · have hd : n / 10 < fuel := by
        have := Nat.div_lt_self (by omega : 0 < n) (by omega : 1 < 10)
        omega
      have ih := natDigitsAux_spec fuel (n / 10) hd
      simp only [natDigitsAux, if_neg h10]
      refine ⟨?_, by simp, ?_⟩
      · intro c hc
        rw [List.mem_append] at hc
        rcases hc with hc | hc
        · exact ih.1 c hc
        · simp only [List.mem_singleton] at hc
          subst hc
          exact (digitChar_facts (n % 10)).2
      · rw [digitsVal_append_single, ih.2.2,
          digToNat_digitChar (Nat.mod_lt n (by omega))]
        omega

theorem natDigits_spec (n : Nat) :
    (∀ c ∈ natDigits n, isDigitC c = true) ∧ natDigits n ≠ [] ∧
    digitsVal (natDigits n) = n :=
  natDigitsAux_spec (n + 1) n (by omega)

theorem serV_startOk (opt : Option Nat) (d : Nat) (v : JVal) :
    ∃ c t2, serV opt d v = c :: t2 ∧ isWs c = false ∧ c ≠ ']' ∧ c ≠ '}' := by
  match v with
  | .null => exact ⟨'n', _, rfl, by decide, by decide, by decide⟩
  | .bool true => exact ⟨'t', _, rfl, by decide, by decide, by decide⟩
  | .bool false => exact ⟨'f', _, rfl, by decide, by decide, by decide⟩
  | .str s => exact ⟨'"', _, rfl, by decide, by decide, by decide⟩
  | .arr [] => exact ⟨'[', _, rfl, by decide, by decide, by decide⟩
  | .arr (e :: es) => exact ⟨'[', _, rfl, by decide, by decide, by decide⟩
  | .obj [] => exact ⟨'{', _, rfl, by decide, by decide, by decide⟩
  | .obj (f :: fs) => exact ⟨'{', _, rfl, by decide, by decide, by decide⟩
  | .num n =>
    by_cases hn : n < 0
    · refine ⟨'-', natDigits n.natAbs, ?_, by decide, by decide, by decide⟩
      show serNum n = '-' :: natDigits n.natAbs
      simp [serNum, hn]
    · have hs := natDigits_spec n.natAbs
      rcases hd : natDigits n.natAbs with _ | ⟨c, t2⟩
      · exact absurd hd hs.2.1
      · have hc : isDigitC c = true := hs.1 c (by rw [hd]; simp)
        have hns := digit_not_special hc
        refine ⟨c, t2, ?_, hns.1, hns.2.1, hns.2.2.1⟩
        show serNum n = c :: t2
        simp [serNum, hn, hd]

theorem pNum_ser (n : Int) (rest : List Char) (hr : delimOk rest = true) :
    pNum (serNum n ++ rest) = .ok (.num n, rest) := by
  have hd := delim_takeWhile hr
  have hs := natDigits_spec n.natAbs
  have htake := @takeWhile_all_append isDigitC (natDigits n.natAbs) rest hs.1
  by_cases hn : n < 0
  · simp only [serNum, if_pos hn, List.cons_append]
    simp only [pNum, if_pos (rfl : ('-' : Char) = '-')]
    rw [htake.1, htake.2, hd.1, hd.2, List.append_nil]
    rcases hds : natDigits n.natAbs with _ | ⟨c, t2⟩
    · exact absurd hds hs.2.1
    · have hv := hs.2.2
      rw [hds] at hv
      have hcast : -((n.natAbs : Nat) : Int) = n := by omega
      show Except.ok (JVal.num (-((digitsVal (c :: t2) : Nat) : Int)), rest) =
        Except.ok (JVal.num n, rest)
      rw [hv, hcast]
  · simp only [serNum, if_neg hn]
    rcases hds : natDigits n.natAbs with _ | ⟨c, t2⟩
    · exact absurd hds hs.2.1
    · have hc : isDigitC c = true := hs.1 c (by rw [hds]; simp)
      have hcm : ¬(c = '-') := (digit_not_special hc).2.2.2.2.1
      rw [hds] at htake
      rw [List.cons_append] at htake ⊢
      simp only [pNum, if_neg hcm]
      rw [htake.1, htake.2, hd.1, hd.2, List.append_nil]
      have hv := hs.2.2
      rw [hds] at hv
      have hcast : ((n.natAbs : Nat) : Int) = n := by omega
      show Except.ok (JVal.num ((digitsVal (c :: t2) : Nat) : Int), rest) =
        Except.ok (JVal.num n, rest)
      rw [hv, hcast]

theorem hexVal_hexDigitChar {m : Nat} (h : m < 16) : hexVal (hexDigitChar m) = some m := by
  interval_cases m <;> decide

theorem pStrBody_ser (s : List Char) : ∀ (rest : List Char) (fuel : Nat),
    (serStrBody s).length + 1 ≤ fuel →
    pStrBody fuel (serStrBody s ++ '"' :: rest) = .ok (s, rest) := by
  induction s with
  | nil =>
    intro rest fuel hf
    match fuel, hf with
    | fuel + 1, _ =>
      rw [show serStrBody [] ++ '"' :: rest = '"' :: rest from rfl]
      simp [pStrBody]
  | cons c t ih =>
    intro rest fuel hf
    have hlen : (escChar c).length + (serStrBody t).length + 1 ≤ fuel := by
      have : serStrBody (c :: t) = escChar c ++ serStrBody t := rfl
      rw [this, List.length_append] at hf
      omega
    have hone : 1 ≤ (escChar c).length := by
      by_cases h1 : c = '"'
      · simp [escChar, h1]
      · by_cases h2 : c = '\\'
        · simp [escChar, h1, h2]
        · by_cases h3 : c.toNat < 32
          · simp [escChar, h1, h2, h3]
          · simp [escChar, h1, h2, h3]
    match fuel, hf with
    | fuel + 1, _ =>
      have hft : (serStrBody t).length + 1 ≤ fuel := by omega
      have hih := ih rest fuel hft
      show pStrBody (fuel + 1) ((escChar c ++ serStrBody t) ++ '"' :: rest) =
        .ok (c :: t, rest)
      by_cases h1 : c = '"'
      · subst h1
        rw [show (escChar '"' ++ serStrBody t) ++ '"' :: rest =
              '\\' :: '"' :: (serStrBody t ++ '"' :: rest) from by
            rw [show escChar '"' = ['\\', '"'] from rfl]; simp]
        simp [pStrBody, hih]
      · by_cases h2 : c = '\\'
        · subst h2
          rw [show (escChar '\\' ++ serStrBody t) ++ '"' :: rest =
                '\\' :: '\\' :: (serStrBody t ++ '"' :: rest) from by
              rw [show escChar '\\' = ['\\', '\\'] from rfl]; simp]
          simp [pStrBody, hih]
        · by_cases h3 : c.toNat < 32
          · have hdiv : c.toNat / 16 < 16 := by omega
            have hmod : c.toNat % 16 < 16 := Nat.mod_lt _ (by omega)
            have hesc : escChar c =
                ['\\', 'u', '0', '0', hexDigitChar (c.toNat / 16), hexDigitChar (c.toNat % 16)] := by
              simp [escChar, h1, h2, h3]
            rw [show (escChar c ++ serStrBody t) ++ '"' :: rest =
                  '\\' :: 'u' :: '0' :: '0' :: hexDigitChar (c.toNat / 16) ::
                    hexDigitChar (c.toNat % 16) :: (serStrBody t ++ '"' :: rest) from by
                rw [hesc]; simp]
            simp only [pStrBody]
            simp [hexVal_hexDigitChar hdiv, hexVal_hexDigitChar hmod, hih,
              show hexVal ('0') = some 0 from rfl]
            have harith2 : c.toNat / 16 * 16 + c.toNat % 16 = c.toNat := by omega
            rw [harith2, Char.ofNat_toNat]
          · have hesc : escChar c = [c] := by
              simp [escChar, h1, h2, h3]
            rw [show (escChar c ++ serStrBody t) ++ '"' :: rest =
                  c :: (serStrBody t ++ '"' :: rest) from by rw [hesc]; simp]
            simp only [pStrBody]
            simp only [if_neg h1, if_neg h2, if_neg h3]
            rw [hih]

theorem skipWs_ws_cons {w : List Char} {c : Char} (t : List Char) (hw : wsOnly w = true)
    (hc : isWs c = false) : skipWs (w ++ c :: t) = c :: t := by
  rw [skipWs_ws_append _ hw, skipWs_not_ws _ hc]

theorem string_mk_data : ∀ s : String, String.mk s.data = s
  | ⟨_⟩ => rfl

theorem szV_pos (v : JVal) : 1 ≤ szV v := by
  cases v <;> simp [szV]

theorem serNum_head (n : Int) : ∃ c0 t0, serNum n = c0 :: t0 ∧ isWs c0 = false ∧
    (c0 = '-' || isDigitC c0) = true ∧ ¬(c0 = 'n') ∧ ¬(c0 = 't') ∧ ¬(c0 = 'f') ∧
    ¬(c0 = '"') ∧ ¬(c0 = '[') ∧ ¬(c0 = '{') := by
  by_cases hn : n < 0
  · refine ⟨'-', natDigits n.natAbs, ?_, by decide, by decide, by decide, by decide,
      by decide, by decide, by decide, by decide⟩
    simp [serNum, hn]
  · have hs := natDigits_spec n.natAbs
    rcases hd : natDigits n.natAbs with _ | ⟨c, t⟩
    · exact absurd hd hs.2.1
    · have hc : isDigitC c = true := hs.1 c (by rw [hd]; simp)
      have hns := digit_not_special hc
      refine ⟨c, t, ?_, hns.1, by simp [hc], ?_, ?_, ?_, ?_, ?_, ?_⟩
      · simp [serNum, hn, hd]
      · exact hns.2.2.2.2.2.1
      · exact hns.2.2.2.2.2.2.1
      · exact hns.2.2.2.2.2.2.2.1
      · exact hns.2.2.2.2.2.2.2.2.1
      · exact hns.2.2.2.2.2.2.2.2.2.1
      · exact hns.2.2.2.2.2.2.2.2.2.2

theorem delimOk_indWs_cons (opt : Option Nat) (d2 : Nat) {c : Char} (t : List Char)
    (hc : isDigitC c = false) : delimOk (indWs opt d2 ++ c :: t) = true := by
  cases opt with
  | none => simp [indWs, delimOk, hc]
  | some w2 => rfl

theorem delimOk_serL_tail (opt : Option Nat) (dIn dCl : Nat) (es : List JVal)
    (rest : List Char) :
    delimOk (serL opt dIn es ++ (indWs opt dCl ++ (']' :: rest))) = true := by
  cases es with
  | nil =>
    rw [show serL opt dIn [] = [] from rfl, List.nil_append]
    exact delimOk_indWs_cons opt dCl _ (by decide)
  | cons e2 es2 => rfl

theorem delimOk_serF_tail (opt : Option Nat) (dIn dCl : Nat)
    (fs : List (String × JVal)) (rest : List Char) :
    delimOk (serF opt dIn fs ++ (indWs opt dCl ++ ('}' :: rest))) = true := by
  cases fs with
  | nil =>
    rw [show serF opt dIn [] = [] from rfl, List.nil_append]
    exact delimOk_indWs_cons opt dCl _ (by decide)
  | cons f2 fs2 =>
    obtain ⟨k2, v2⟩ := f2
    rfl

theorem pStrBody_ser_len (s rest0 : List Char) :
    pStrBody ((serStrBody s ++ '"' :: rest0).length + 1) (serStrBody s ++ '"' :: rest0) =
      .ok (s, rest0) := by
  apply pStrBody_ser
  rw [List.length_append]
  omega

theorem pStrBody_ser_any (s rest0 : List Char) (fuel : Nat)
    (h : (serStrBody s).length < fuel) :
    pStrBody fuel (serStrBody s ++ '"' :: rest0) = .ok (s, rest0) := by
  apply pStrBody_ser
  omega

theorem skipWs_indWs_cons (opt : Option Nat) (d2 : Nat) (c : Char) (t : List Char)
    (hc : isWs c = false) : skipWs (indWs opt d2 ++ c :: t) = c :: t :=
  skipWs_ws_cons _ (wsOnly_indWs opt d2) hc

theorem skipWs_indWs_serV (opt : Option Nat) (dw dv : Nat) (v2 : JVal) (y : List Char) :
    ∃ c2 t2, serV opt dv v2 = c2 :: t2 ∧ c2 ≠ ']' ∧ c2 ≠ '}' ∧
      skipWs (indWs opt dw ++ (serV opt dv v2 ++ y)) = c2 :: (t2 ++ y) := by
  obtain ⟨c2, t2, hser2, hws2, hb1, hb2⟩ := serV_startOk opt dv v2
  refine ⟨c2, t2, hser2, hb1, hb2, ?_⟩
  rw [hser2, List.cons_append]
  exact skipWs_ws_cons _ (wsOnly_indWs opt dw) hws2

theorem pv_step_null (opt : Option Nat) (d : Nat) (w rest : List Char) (fuel : Nat)
    (hw : wsOnly w = true) :
    pVal (fuel + 1) (w ++ (serV opt d .null ++ rest)) = .ok (.null, rest) := by
  simp only [pVal]
  rw [show serV opt d .null ++ rest = 'n' :: ('u' :: 'l' :: 'l' :: rest) from rfl]
  rw [skipWs_ws_cons _ hw (by decide)]
  rfl

theorem pv_step_str (opt : Option Nat) (d : Nat) (s : String) (w rest : List Char) (fuel : Nat)
    (hw : wsOnly w = true) :
    pVal (fuel + 1) (w ++ (serV opt d (.str s) ++ rest)) = .ok (.str s, rest) := by
  simp only [pVal]
  rw [show serV opt d (.str s) ++ rest = '"' :: (serStrBody s.data ++ ('"' :: rest)) from by
    simp [serV, serStr]]
  rw [skipWs_ws_cons _ hw (by decide)]
  simp [pStrBody_ser_len, string_mk_data]
  rw [pStrBody_ser s.data rest ((serStrBody s.data).length + (rest.length + 1) + 1) (by omega)]

theorem pv_step_num (opt : Option Nat) (d : Nat) (n : Int) (w rest : List Char) (fuel : Nat)
    (hw : wsOnly w = true) (hr : delimOk rest = true) :
    pVal (fuel + 1) (w ++ (serV opt d (.num n) ++ rest)) = .ok (.num n, rest) := by
  obtain ⟨c0, t0, hser, hws0, hnum0, hn0, ht0, hf0, hq0, hb0, hc0⟩ := serNum_head n
  simp only [pVal]
  rw [show serV opt d (.num n) = serNum n from rfl, hser, List.cons_append]
  rw [skipWs_ws_cons _ hw hws0]
  simp [hn0, ht0, hf0, hq0, hb0, hc0, hnum0]
  rw [← List.cons_append, ← hser]
  exact pNum_ser n rest hr

theorem pv_step_arr_nil (opt : Option Nat) (d : Nat) (w rest : List Char) (fuel : Nat)
    (hw : wsOnly w = true) :
    pVal (fuel + 1) (w ++ (serV opt d (.arr []) ++ rest)) = .ok (.arr [], rest) := by
  simp only [pVal]
  rw [show serV opt d (.arr []) ++ rest = '[' :: (']' :: rest) from rfl]
  rw [skipWs_ws_cons _ hw (by decide)]
  rfl

theorem pv_step_obj_nil (opt : Option Nat) (d : Nat) (w rest : List Char) (fuel : Nat)
    (hw : wsOnly w = true) :
    pVal (fuel + 1) (w ++ (serV opt d (.obj []) ++ rest)) = .ok (.obj [], rest) := by
  simp only [pVal]
  rw [show serV opt d (.obj []) ++ rest = '{' :: ('}' :: rest) from rfl]
  rw [skipWs_ws_cons _ hw (by decide)]
  rfl

theorem pv_step_arr_cons (opt : Option Nat) (d : Nat) (e : JVal) (es : List JVal)
    (w rest : List Char) (fuel : Nat) (hw : wsOnly w = true)
    (hpe0 : ∀ (w2 rest2 : List Char), wsOnly w2 = true →
      pElems fuel (w2 ++ (serV opt (d + 1) e ++ (serL opt (d + 1) es ++ (indWs opt d ++
        (']' :: rest2))))) = .ok (e :: es, rest2)) :
    pVal (fuel + 1) (w ++ (serV opt d (.arr (e :: es)) ++ rest)) = .ok (.arr (e :: es), rest) := by
  simp only [pVal]
  rw [show serV opt d (.arr (e :: es)) ++ rest =
        '[' :: (indWs opt (d + 1) ++ (serV opt (d + 1) e ++ (serL opt (d + 1) es ++
          (indWs opt d ++ (']' :: rest))))) from by simp [serV, serArr]]
  rw [skipWs_ws_cons _ hw (by decide)]
  obtain ⟨c2, t2, hser2, hne2, _, hskip2⟩ := skipWs_indWs_serV opt (d + 1) (d + 1) e
    (serL opt (d + 1) es ++ (indWs opt d ++ (']' :: rest)))
  have hpe := hpe0 [] rest rfl
  rw [List.nil_append, hser2, List.cons_append] at hpe
  simp [hskip2, hne2, hpe]

theorem pv_step_obj_cons (opt : Option Nat) (d : Nat) (k : String) (v : JVal)
    (fs : List (String × JVal)) (w rest : List Char) (fuel : Nat) (hw : wsOnly w = true)
    (hpf0 : ∀ (w2 rest2 : List Char), wsOnly w2 = true →
      pFields fuel (w2 ++ (serStr k ++ (':' :: (colWs opt ++ (serV opt (d + 1) v ++
        (serF opt (d + 1) fs ++ (indWs opt d ++ ('}' :: rest2)))))))) = .ok ((k, v) :: fs, rest2)) :
    pVal (fuel + 1) (w ++ (serV opt d (.obj ((k, v) :: fs)) ++ rest)) =
      .ok (.obj ((k, v) :: fs), rest) := by
  simp only [pVal]
  rw [show serV opt d (.obj ((k, v) :: fs)) ++ rest =
        '{' :: (indWs opt (d + 1) ++ (serStr k ++ (':' :: (colWs opt ++
          (serV opt (d + 1) v ++ (serF opt (d + 1) fs ++ (indWs opt d ++
            ('}' :: rest)))))))) from by simp [serV, serObj]]
  rw [skipWs_ws_cons _ hw (by decide)]
  have hpf := hpf0 [] rest rfl
  rw [List.nil_append] at hpf
  rw [show serStr k ++ (':' :: (colWs opt ++ (serV opt (d + 1) v ++ (serF opt (d + 1) fs ++
        (indWs opt d ++ ('}' :: rest)))))) = '"' :: (serStrBody k.data ++ ('"' :: (':' ::
        (colWs opt ++ (serV opt (d + 1) v ++ (serF opt (d + 1) fs ++ (indWs opt d ++
          ('}' :: rest)))))))) from by simp [serStr]] at hpf ⊢
  simp [skipWs_indWs_cons, isWs, hpf]

theorem pe_step_nil (opt : Option Nat) (dIn dCl : Nat) (e : JVal) (w rest : List Char)
    (fuel : Nat) (hw : wsOnly w = true)
    (hpv0 : ∀ rest2, delimOk rest2 = true →
      pVal fuel (w ++ (serV opt dIn e ++ rest2)) = .ok (e, rest2)) :
    pElems (fuel + 1) (w ++ (serV opt dIn e ++ (serL opt dIn [] ++ (indWs opt dCl ++
      (']' :: rest))))) = .ok ([e], rest) := by
  rw [show serL opt dIn ([] : List JVal) ++ (indWs opt dCl ++ (']' :: rest)) =
        indWs opt dCl ++ (']' :: rest) from by simp [serL]]
  simp only [pElems]
  rw [hpv0 (indWs opt dCl ++ (']' :: rest)) (delimOk_indWs_cons opt dCl _ (by decide))]
  simp [skipWs_indWs_cons, isWs]

theorem pe_step_cons (opt : Option Nat) (dIn dCl : Nat) (e e2 : JVal) (es2 : List JVal)
    (w rest : List Char) (fuel : Nat) (hw : wsOnly w = true)
    (hpv0 : ∀ rest2, delimOk rest2 = true →
      pVal fuel (w ++ (serV opt dIn e ++ rest2)) = .ok (e, rest2))
    (hpe0 : pElems fuel (indWs opt dIn ++ (serV opt dIn e2 ++ (serL opt dIn es2 ++
      (indWs opt dCl ++ (']' :: rest))))) = .ok (e2 :: es2, rest)) :
    pElems (fuel + 1) (w ++ (serV opt dIn e ++ (serL opt dIn (e2 :: es2) ++ (indWs opt dCl ++
      (']' :: rest))))) = .ok (e :: e2 :: es2, rest) := by
  rw [show serL opt dIn (e2 :: es2) ++ (indWs opt dCl ++ (']' :: rest)) =
        ',' :: (indWs opt dIn ++ (serV opt dIn e2 ++ (serL opt dIn es2 ++ (indWs opt dCl ++
          (']' :: rest))))) from by simp [serL]]
  simp only [pElems]
  rw [hpv0 (',' :: (indWs opt dIn ++ (serV opt dIn e2 ++ (serL opt dIn es2 ++ (indWs opt dCl ++
    (']' :: rest)))))) rfl]
  simp [skipWs_not_ws, isWs, hpe0]

theorem pf_step_nil (opt : Option Nat) (dIn dCl : Nat) (k : String) (v : JVal)
    (w rest : List Char) (fuel : Nat) (hw : wsOnly w = true)
    (hpv0 : ∀ (w2 rest2 : List Char), wsOnly w2 = true → delimOk rest2 = true →
      pVal fuel (w2 ++ (serV opt dIn v ++ rest2)) = .ok (v, rest2)) :
    pFields (fuel + 1) (w ++ (serStr k ++ (':' :: (colWs opt ++ (serV opt dIn v ++
      (serF opt dIn [] ++ (indWs opt dCl ++ ('}' :: rest)))))))) = .ok ([(k, v)], rest) := by
  rw [show serF opt dIn ([] : List (String × JVal)) ++ (indWs opt dCl ++ ('}' :: rest)) =
        indWs opt dCl ++ ('}' :: rest) from by simp [serF]]
  simp only [pFields]
  rw [show serStr k ++ (':' :: (colWs opt ++ (serV opt dIn v ++ (indWs opt dCl ++
        ('}' :: rest))))) = '"' :: (serStrBody k.data ++ ('"' :: (':' :: (colWs opt ++
        (serV opt dIn v ++ (indWs opt dCl ++ ('}' :: rest))))))) from by simp [serStr]]
  rw [skipWs_ws_cons _ hw (by decide)]
  have hpv := hpv0 (colWs opt) (indWs opt dCl ++ ('}' :: rest)) (wsOnly_colWs opt)
    (delimOk_indWs_cons opt dCl _ (by decide))
  have hskc : ∀ R : List Char, skipWs (':' :: R) = ':' :: R :=
    fun R => skipWs_not_ws R (by decide)
  have hskw : ∀ R : List Char, skipWs (indWs opt dCl ++ '}' :: R) = '}' :: R :=
    fun R => skipWs_indWs_cons opt dCl '}' R (by decide)
  have hne1 : (('}' : Char) = ',') = False := eq_false (by decide)
  simp only [pStrBody_ser_len, hskc, hskw, hpv, reduceIte, hne1, ite_false, string_mk_data]

theorem pf_step_cons (opt : Option Nat) (dIn dCl : Nat) (k k2 : String) (v v2 : JVal)
    (fs2 : List (String × JVal)) (w rest : List Char) (fuel : Nat) (hw : wsOnly w = true)
    (hpv0 : ∀ (w2 rest2 : List Char), wsOnly w2 = true → delimOk rest2 = true →
      pVal fuel (w2 ++ (serV opt dIn v ++ rest2)) = .ok (v, rest2))
    (hpf0 : pFields fuel (indWs opt dIn ++ (serStr k2 ++ (':' :: (colWs opt ++
      (serV opt dIn v2 ++ (serF opt dIn fs2 ++ (indWs opt dCl ++ ('}' :: rest)))))))) =
      .ok ((k2, v2) :: fs2, rest)) :
    pFields (fuel + 1) (w ++ (serStr k ++ (':' :: (colWs opt ++ (serV opt dIn v ++
      (serF opt dIn ((k2, v2) :: fs2) ++ (indWs opt dCl ++ ('}' :: rest)))))))) =
      .ok ((k, v) :: (k2, v2) :: fs2, rest) := by
  rw [show serF opt dIn ((k2, v2) :: fs2) ++ (indWs opt dCl ++ ('}' :: rest)) =
        ',' :: (indWs opt dIn ++ (serStr k2 ++ (':' :: (colWs opt ++ (serV opt dIn v2 ++
          (serF opt dIn fs2 ++ (indWs opt dCl ++ ('}' :: rest)))))))) from by simp [serF]]
  simp only [pFields]
  rw [show serStr k ++ (':' :: (colWs opt ++ (serV opt dIn v ++ (',' :: (indWs opt dIn ++
        (serStr k2 ++ (':' :: (colWs opt ++ (serV opt dIn v2 ++ (serF opt dIn fs2 ++
          (indWs opt dCl ++ ('}' :: rest)))))))))))) = '"' :: (serStrBody k.data ++ ('"' ::
        (':' :: (colWs opt ++ (serV opt dIn v ++ (',' :: (indWs opt dIn ++ (serStr k2 ++
          (':' :: (colWs opt ++ (serV opt dIn v2 ++ (serF opt dIn fs2 ++ (indWs opt dCl ++
            ('}' :: rest)))))))))))))) from by simp [serStr]]
  rw [skipWs_ws_cons _ hw (by decide)]
  have hpv := hpv0 (colWs opt) (',' :: (indWs opt dIn ++ (serStr k2 ++ (':' :: (colWs opt ++
    (serV opt dIn v2 ++ (serF opt dIn fs2 ++ (indWs opt dCl ++ ('}' :: rest)))))))))
    (wsOnly_colWs opt) rfl
  have hskc : ∀ R : List Char, skipWs (':' :: R) = ':' :: R :=
    fun R => skipWs_not_ws R (by decide)
  have hskm : ∀ R : List Char, skipWs (',' :: R) = ',' :: R :=
    fun R => skipWs_not_ws R (by decide)
  simp only [pStrBody_ser_len, hskc, hskm, hpv, hpf0, reduceIte, string_mk_data]

theorem pv_step_true (opt : Option Nat) (d : Nat) (w rest : List Char) (fuel : Nat)
    (hw : wsOnly w = true) :
    pVal (fuel + 1) (w ++ (serV opt d (.bool true) ++ rest)) = .ok (.bool true, rest) := by
  simp only [pVal]
  rw [show serV opt d (.bool true) ++ rest = 't' :: ('r' :: 'u' :: 'e' :: rest) from rfl]
  rw [skipWs_ws_cons _ hw (by decide)]
  rfl

theorem pv_step_false (opt : Option Nat) (d : Nat) (w rest : List Char) (fuel : Nat)
    (hw : wsOnly w = true) :
    pVal (fuel + 1) (w ++ (serV opt d (.bool false) ++ rest)) = .ok (.bool false, rest) := by
  simp only [pVal]
  rw [show serV opt d (.bool false) ++ rest = 'f' :: ('a' :: 'l' :: 's' :: 'e' :: rest) from rfl]
  rw [skipWs_ws_cons _ hw (by decide)]
  rfl

mutual
/-- The grammar check accepts serializer output: any serialized value, with
whitespace-only prefix `w` and a suffix `rest` that does not start with a
digit, parses back to exactly that value, leaving `rest`. -/
theorem pVal_ser (opt : Option Nat) (d : Nat) :
    ∀ (v : JVal) (w rest : List Char) (fuel : Nat),
      wsOnly w = true → delimOk rest = true → szV v ≤ fuel →
      pVal fuel (w ++ (serV opt d v ++ rest)) = .ok (v, rest)
  | .null, w, rest, fuel, hw, _, hsz => by
    rcases fuel with _ | fuel
    · exact absurd hsz (by simp [szV])
    · exact pv_step_null opt d w rest fuel hw
  | .bool true, w, rest, fuel, hw, _, hsz => by
    rcases fuel with _ | fuel
    · exact absurd hsz (by simp [szV])
    · exact pv_step_true opt d w rest fuel hw
  | .bool false, w, rest, fuel, hw, _, hsz => by
    rcases fuel with _ | fuel
    · exact absurd hsz (by simp [szV])
    · exact pv_step_false opt d w rest fuel hw
  | .num n, w, rest, fuel, hw, hr, hsz => by
    rcases fuel with _ | fuel
    · exact absurd hsz (by simp [szV])
    · exact pv_step_num opt d n w rest fuel hw hr
  | .str s, w, rest, fuel, hw, _, hsz => by
    rcases fuel with _ | fuel
    · exact absurd hsz (by simp [szV])
    · exact pv_step_str opt d s w rest fuel hw
  | .arr [], w, rest, fuel, hw, _, hsz => by
    rcases fuel with _ | fuel
    · exact absurd hsz (by simp [szV])
    · exact pv_step_arr_nil opt d w rest fuel hw
  | .arr (e :: es), w, rest, fuel, hw, _, hsz => by
    rcases fuel with _ | fuel
    · exact absurd hsz (by simp [szV])
    · exact pv_step_arr_cons opt d e es w rest fuel hw
        (fun w2 rest2 hw2 => pElems_ser opt (d + 1) d e es w2 rest2 fuel hw2
          (by simp only [szV, szL] at hsz; omega))
  | .obj [], w, rest, fuel, hw, _, hsz => by
    rcases fuel with _ | fuel
    · exact absurd hsz (by simp [szV])
    · exact pv_step_obj_nil opt d w rest fuel hw
  | .obj ((k, v) :: fs), w, rest, fuel, hw, _, hsz => by
    rcases fuel with _ | fuel
    · exact absurd hsz (by simp [szV])
    · exact pv_step_obj_cons opt d k v fs w rest fuel hw
        (fun w2 rest2 hw2 => pFields_ser opt (d + 1) d k v fs w2 rest2 fuel hw2
          (by simp only [szV, szF] at hsz; omega))
termination_by v w rest fuel hw hr hsz => 3 * sizeOf v
decreasing_by all_goals simp_wf; all_goals omega

/-- `pElems` accepts the serialized remainder of a non-empty array. -/
theorem pElems_ser (opt : Option Nat) (dIn dCl : Nat) :
    ∀ (e : JVal) (es : List JVal) (w rest : List Char) (fuel : Nat),
      wsOnly w = true → szV e + szL es + 1 ≤ fuel →
      pElems fuel (w ++ (serV opt dIn e ++ (serL opt dIn es ++ (indWs opt dCl ++
        (']' :: rest))))) = .ok (e :: es, rest)
  | e, [], w, rest, fuel, hw, hsz => by
    rcases fuel with _ | fuel
    · exact absurd hsz (by omega)
    · exact pe_step_nil opt dIn dCl e w rest fuel hw
        (fun rest2 hr2 => pVal_ser opt dIn e w rest2 fuel hw hr2 (by omega))
  | e, e2 :: es2, w, rest, fuel, hw, hsz => by
    rcases fuel with _ | fuel
    · exact absurd hsz (by omega)
    · exact pe_step_cons opt dIn dCl e e2 es2 w rest fuel hw
        (fun rest2 hr2 => pVal_ser opt dIn e w rest2 fuel hw hr2 (by omega))
        (pElems_ser opt dIn dCl e2 es2 (indWs opt dIn) rest fuel (wsOnly_indWs opt dIn)
          (by have h1 := szV_pos e; simp only [szL] at hsz; omega))
termination_by e es w rest fuel hw hsz => 3 * (sizeOf e + sizeOf es) + 1
decreasing_by all_goals simp_wf; all_goals omega

/-- `pFields` accepts the serialized remainder of a non-empty object. -/
theorem pFields_ser (opt : Option Nat) (dIn dCl : Nat) :
    ∀ (k : String) (v : JVal) (fs : List (String × JVal)) (w rest : List Char) (fuel : Nat),
      wsOnly w = true → szV v + szF fs + 1 ≤ fuel →
      pFields fuel (w ++ (serStr k ++ (':' :: (colWs opt ++ (serV opt dIn v ++
        (serF opt dIn fs ++ (indWs opt dCl ++ ('}' :: rest)))))))) = .ok ((k, v) :: fs, rest)
  | k, v, [], w, rest, fuel, hw, hsz => by
    rcases fuel with _ | fuel
    · exact absurd hsz (by omega)
    · exact pf_step_nil opt dIn dCl k v w rest fuel hw
        (fun w2 rest2 hw2 hr2 => pVal_ser opt dIn v w2 rest2 fuel hw2 hr2 (by omega))
  | k, v, (k2, v2) :: fs2, w, rest, fuel, hw, hsz => by
    rcases fuel with _ | fuel
    · exact absurd hsz (by omega)
    · exact pf_step_cons opt dIn dCl k k2 v v2 fs2 w rest fuel hw
        (fun w2 rest2 hw2 hr2 => pVal_ser opt dIn v w2 rest2 fuel hw2 hr2 (by omega))
        (pFields_ser opt dIn dCl k2 v2 fs2 (indWs opt dIn) rest fuel (wsOnly_indWs opt dIn)
          (by have h1 := szV_pos v; simp only [szF] at hsz; omega))
termination_by k v fs w rest fuel hw hsz => 3 * (sizeOf v + sizeOf fs) + 1
decreasing_by all_goals simp_wf; all_goals omega
end

mutual
/-- The fuel lower bound `szV` is at most the serialized length. -/
theorem szV_le_len (opt : Option Nat) (d : Nat) : ∀ v : JVal, szV v ≤ (serV opt d v).length
  | .null => by simp [szV, serV]
  | .bool b => by cases b <;> simp [szV, serV]
  | .num n => by
    obtain ⟨c0, t0, hser, -, -, -, -, -, -, -, -⟩ := serNum_head n
    simp [szV, serV, hser]
  | .str s => by simp [szV, serV, serStr]
  | .arr [] => by simp [szV, szL, serV, serArr]
  | .arr (e :: es) => by
    have h1 := szV_le_len opt (d + 1) e
    have h2 := szL_le_len opt (d + 1) es
    simp only [szV, szL, serV, serArr, List.length_cons, List.length_append]
    omega
  | .obj [] => by simp [szV, szF, serV, serObj]
  | .obj ((k, v) :: fs) => by
    have h1 := szV_le_len opt (d + 1) v
    have h2 := szF_le_len opt (d + 1) fs
    simp only [szV, szF, serV, serObj, List.length_cons, List.length_append]
    omega
termination_by v => sizeOf v
decreasing_by all_goals simp_wf; all_goals omega

/-- `szL` is at most the length of the serialized element remainder. -/
theorem szL_le_len (opt : Option Nat) (d : Nat) : ∀ es : List JVal, szL es ≤ (serL opt d es).length
  | [] => by simp [szL, serL]
  | e :: es => by
    have h1 := szV_le_len opt d e
    have h2 := szL_le_len opt d es
    simp only [szL, serL, List.length_cons, List.length_append]
    omega
termination_by es => sizeOf es
decreasing_by all_goals simp_wf; all_goals omega

/-- `szF` is at most the length of the serialized member remainder. -/
theorem szF_le_len (opt : Option Nat) (d : Nat) :
    ∀ fs : List (String × JVal), szF fs ≤ (serF opt d fs).length
  | [] => by simp [szF, serF]
  | (k, v) :: fs => by
    have h1 := szV_le_len opt d v
    have h2 := szF_le_len opt d fs
    simp only [szF, serF, List.length_cons, List.length_append]
    omega
termination_by fs => sizeOf fs
decreasing_by all_goals simp_wf; all_goals omega
end

/-- The modelled engine accepts any serializer output and returns the value. -/
theorem jsonEngine_ser (opt : Option Nat) (v : JVal) :
    jsonEngine (String.mk (serV opt 0 v)) = .ok v := by
  have h := pVal_ser opt 0 v [] [] ((serV opt 0 v).length + 1) rfl rfl
    (by have := szV_le_len opt 0 v; omega)
  rw [List.nil_append, List.append_nil] at h
  simp only [jsonEngine]
  rw [h]
  rfl

/-- C4: for every valid JSON value `v` (in the model: integer numbers and,
via `validV`, pairwise-distinct object keys, so that the engine's
last-wins key handling cannot differ from the serialized value),
`parse(format(v))` succeeds and yields exactly `v`, and so does
`parse(compact(v))`. -/
theorem c4_serialize_parse_roundtrip (v : JVal) (h : validV v = true) :
    parse (format v) = { data := some v, error := none } ∧
      parse (compact v) = { data := some v, error := none } := by
  constructor
  · simp only [parse, format, jsonEngine_ser]
  · simp only [parse, compact, jsonEngine_ser]

theorem c4_serialize_parse_roundtrip_witness :
    validV vDemo = true ∧
      (parse (format vDemo) = { data := some vDemo, error := none } ∧
        parse (compact vDemo) = { data := some vDemo, error := none }) :=
  ⟨by decide, c4_serialize_parse_roundtrip vDemo (by decide)⟩

end JsonFormatter
